/-
Verification of the Stockpile inventory application's policy engine.

Shallow embedding of the TypeScript sources:
  * `src/App.tsx`               — the `Product` record type;
  * `src/components/Dashboard.tsx`, `src/components/Reports.tsx`
                                — stock-status filters and aggregate reports;
  * `src/components/Restock.tsx`— restock suggestion and quantity editing;
  * `src/lib/localStorage.ts`   — the catalog store (`productService`).

Numbers: the TypeScript stock fields are numbers used as integers, embedded
as `Int` (subtraction in the restock suggestion can go negative); currency
amounts are embedded as `ℚ`; ISO-8601 timestamp strings are embedded as
abstract clock instants `Nat`.
-/
import Mathlib

namespace Stockpile

/-- The `Product` record type from `src/App.tsx`. -/
structure Product where
  id : String
  name : String
  description : String
  category : String
  brand : String
  sku : String
  barcode : Option String
  current_stock : Int
  min_stock_level : Int
  max_stock_level : Int
  cost_price : ℚ
  selling_price : ℚ
  supplier : String
  location : String
  created_at : Nat
  updated_at : Nat
deriving Repr, DecidableEq

/-- The three stock-health states named by the reports. -/
inductive StockStatus where
  | OUT_OF_STOCK
  | LOW_STOCK
  | IN_STOCK
deriving Repr, DecidableEq

/-- Filter from `Dashboard.tsx` line 49 / `Reports.tsx` line 39:
`p.current_stock === 0`. -/
def isOutOfStock (p : Product) : Bool :=
  decide (p.current_stock = 0)

/-- Filter from `Dashboard.tsx` line 48 / `Reports.tsx` lines 36–38:
`p.current_stock <= p.min_stock_level && p.current_stock > 0`. -/
def isLowStock (p : Product) : Bool :=
  decide (p.current_stock ≤ p.min_stock_level) && decide (p.current_stock > 0)

/-- Filter from `Reports.tsx` line 58: `p.current_stock > p.min_stock_level`. -/
def isGoodStock (p : Product) : Bool :=
  decide (p.current_stock > p.min_stock_level)

/-- Stock classification in the precedence order the components test the
filters: out-of-stock first, then low, otherwise in stock. -/
def classify (p : Product) : StockStatus :=
  if isOutOfStock p then StockStatus.OUT_OF_STOCK
  else if isLowStock p then StockStatus.LOW_STOCK
  else StockStatus.IN_STOCK

/-- Restock suggestion from `Restock.tsx` lines 38–45:
`Math.max(Math.max(max_stock_level - current_stock,
min_stock_level - current_stock), 10)`. -/
def suggestedQuantity (p : Product) : Int :=
  max (max (p.max_stock_level - p.current_stock)
           (p.min_stock_level - p.current_stock)) 10

/-- A row of the restock work list (`RestockItem` in `Restock.tsx`). -/
structure RestockItem where
  product : Product
  suggestedQuantity : Int
  actualQuantity : Int
deriving Repr, DecidableEq

/-- `updateQuantity` from `Restock.tsx` lines 58–66: the matching item's
`actualQuantity` becomes `Math.max(0, quantity)`; other items are unchanged. -/
def updateQuantity (items : List RestockItem) (productId : String)
    (quantity : Int) : List RestockItem :=
  items.map (fun item =>
    if item.product.id == productId then
      { item with actualQuantity := max 0 quantity }
    else item)

/-- Line value of a product: `current_stock * cost_price`
(`Dashboard.tsx` line 50, `Reports.tsx` lines 35 and 47). -/
def lineValue (p : Product) : ℚ :=
  (p.current_stock : ℚ) * p.cost_price

/-- Low-stock alert list from `Dashboard.tsx` lines 60–63: filter the
low-stock products, then `.slice(0, 5)`. -/
def lowStockAlertList (ps : List Product) : List Product :=
  (ps.filter isLowStock).take 5

/-- `productService.delete` from `src/lib/localStorage.ts` lines 204–214:
filter out the matching id; if the length changed, persist the filtered list
and return `true`, else return `false` and leave the stored list alone.
The pair is (returned boolean, stored catalog afterwards). -/
def deleteProduct (id : String) (ps : List Product) : Bool × List Product :=
  let filtered := ps.filter (fun p => !(p.id == id))
  if filtered.length ≠ ps.length then (true, filtered) else (false, ps)

/-- A `Partial<Product>` patch as used by `productService.update`:
every field optional. -/
structure ProductPatch where
  id : Option String := none
  name : Option String := none
  description : Option String := none
  category : Option String := none
  brand : Option String := none
  sku : Option String := none
  barcode : Option (Option String) := none
  current_stock : Option Int := none
  min_stock_level : Option Int := none
  max_stock_level : Option Int := none
  cost_price : Option ℚ := none
  selling_price : Option ℚ := none
  supplier : Option String := none
  location : Option String := none
  created_at : Option Nat := none
  updated_at : Option Nat := none
deriving Repr, DecidableEq

/-- The spread `{ ...products[index], ...updates, updated_at: now }` from
`src/lib/localStorage.ts` lines 192–196: patch fields override the record,
then `updated_at` is forced to the current instant. -/
def applyPatch (p : Product) (u : ProductPatch) (now : Nat) : Product where
  id := u.id.getD p.id
  name := u.name.getD p.name
  description := u.description.getD p.description
  category := u.category.getD p.category
  brand := u.brand.getD p.brand
  sku := u.sku.getD p.sku
  barcode := u.barcode.getD p.barcode
  current_stock := u.current_stock.getD p.current_stock
  min_stock_level := u.min_stock_level.getD p.min_stock_level
  max_stock_level := u.max_stock_level.getD p.max_stock_level
  cost_price := u.cost_price.getD p.cost_price
  selling_price := u.selling_price.getD p.selling_price
  supplier := u.supplier.getD p.supplier
  location := u.location.getD p.location
  created_at := u.created_at.getD p.created_at
  updated_at := now

/-- `productService.update` from `src/lib/localStorage.ts` lines 187–202:
`findIndex` the id (here `findIdx`, which returns the length when nothing
matches, mirroring the `index !== -1` test); on a hit, replace that slot with
the patched record and return it; on a miss return `null` and leave the
catalog alone. The pair is (returned record, stored catalog afterwards). -/
def updateProduct (ps : List Product) (id : String) (u : ProductPatch)
    (now : Nat) : Option Product × List Product :=
  let i := ps.findIdx (fun p => p.id == id)
  if h : i < ps.length then
    let p' := applyPatch (ps.get ⟨i, h⟩) u now
    (some p', ps.set i p')
  else (none, ps)

/-- A stock-level report row (`stockLevels` entries in `Reports.tsx`). -/
structure StockLevelRow where
  level : String
  count : Nat
  percentage : ℚ
deriving Repr, DecidableEq

/-- `goodStock` from `Reports.tsx` line 58. -/
def goodStockCount (ps : List Product) : Nat :=
  (ps.filter isGoodStock).length

/-- `lowStockCount` from `Reports.tsx` lines 36–38. -/
def lowStockCount (ps : List Product) : Nat :=
  (ps.filter isLowStock).length

/-- `outOfStockCount` from `Reports.tsx` line 39. -/
def outOfStockCount (ps : List Product) : Nat :=
  (ps.filter isOutOfStock).length

/-- `stockLevels` from `Reports.tsx` lines 59–63: three labelled rows with
`(count / totalProducts) * 100` percentages when the catalog is nonempty,
and the empty list (`: []` branch) otherwise. -/
def stockLevels (ps : List Product) : List StockLevelRow :=
  if ps.length > 0 then
    [ ⟨"Good Stock", goodStockCount ps,
        ((goodStockCount ps : ℚ) / (ps.length : ℚ)) * 100⟩,
      ⟨"Low Stock", lowStockCount ps,
        ((lowStockCount ps : ℚ) / (ps.length : ℚ)) * 100⟩,
      ⟨"Out of Stock", outOfStockCount ps,
        ((outOfStockCount ps : ℚ) / (ps.length : ℚ)) * 100⟩ ]
  else []

/-- A category-breakdown row (`Reports.tsx` lines 51–55). -/
structure CategoryRow where
  category : String
  count : Nat
  value : ℚ
deriving Repr, DecidableEq

/-- One `categoryMap.set` step for an already-present category: the matching
row's count and value grow by this product's contribution
(`Reports.tsx` lines 44–48). -/
def bumpRow (p : Product) (r : CategoryRow) : CategoryRow :=
  if r.category == p.category then
    ⟨r.category, r.count + 1, r.value + lineValue p⟩
  else r

/-- One step of the `products.forEach` loop building `categoryMap`
(`Reports.tsx` lines 42–49). A JavaScript `Map` keeps keys in insertion
order: setting an existing key updates it in place, a new key is appended. -/
def addToBreakdown (acc : List CategoryRow) (p : Product) : List CategoryRow :=
  if acc.any (fun r => r.category == p.category) then acc.map (bumpRow p)
  else acc ++ [⟨p.category, 1, lineValue p⟩]

/-- `categoryMap` as the list of its entries in insertion order
(`Array.from(categoryMap.entries())`, `Reports.tsx` lines 51–55). -/
def groupByCategory (ps : List Product) : List CategoryRow :=
  ps.foldl addToBreakdown []

/-- Stable insertion step for the descending-count sort: a row goes in
front of the first earlier-sorted row whose count does not exceed it, so
rows with equal counts keep their relative order. -/
def insertRow (r : CategoryRow) : List CategoryRow → List CategoryRow
  | [] => [r]
  | x :: xs => if x.count ≤ r.count then r :: x :: xs else x :: insertRow r xs

/-- `categoryBreakdown.sort((a, b) => b.count - a.count)` from `Reports.tsx`
line 70: ECMAScript `Array.prototype.sort` is stable, so the result is the
stable descending-count ordering, embedded as stable insertion sort. -/
def sortRows (l : List CategoryRow) : List CategoryRow :=
  l.foldr insertRow []

/-- The reported category breakdown (`Reports.tsx` lines 51–55 and 70). -/
def categoryBreakdown (ps : List Product) : List CategoryRow :=
  sortRows (groupByCategory ps)

/-- Categories of a breakdown accumulator. -/
def catsOf (l : List CategoryRow) : List String :=
  l.map (fun r => r.category)

/-- Total count already recorded for a category in an accumulator (at most
one row matches once the accumulator's categories are distinct). -/
def baseCount (acc : List CategoryRow) (c : String) : Nat :=
  ((acc.filter (fun r => r.category == c)).map (fun r => r.count)).sum

/-- Total value already recorded for a category in an accumulator. -/
def baseValue (acc : List CategoryRow) (c : String) : ℚ :=
  ((acc.filter (fun r => r.category == c)).map (fun r => r.value)).sum

/-! Concrete products mirroring the seed data of `initializeData` in
`src/lib/localStorage.ts` (timestamps abstracted to instant 0). -/

/-- Seed product 1: hammer, stock 25, min 10, max 50, cost 12.50. -/
def sampleP1 : Product where
  id := "1"
  name := "Hammer - Claw 16oz"
  description := "Standard claw hammer with rubber grip"
  category := "Tools"
  brand := "Stanley"
  sku := "TOO-001"
  barcode := some "123456789"
  current_stock := 25
  min_stock_level := 10
  max_stock_level := 50
  cost_price := 12.5
  selling_price := 24.99
  supplier := "Stanley Tools Inc"
  location := "A1-B2"
  created_at := 0
  updated_at := 0

/-- Seed product 2: screwdriver set, stock 5, min 15, max 40, cost 8.00. -/
def sampleP2 : Product where
  id := "2"
  name := "Screwdriver Set"
  description := "6-piece precision screwdriver set"
  category := "Tools"
  brand := "Craftsman"
  sku := "TOO-002"
  barcode := some "234567890"
  current_stock := 5
  min_stock_level := 15
  max_stock_level := 40
  cost_price := 8
  selling_price := 15.99
  supplier := "Craftsman Supply"
  location := "A1-B3"
  created_at := 0
  updated_at := 0

/-- Seed product 3: LED bulb, stock 0, min 20, max 100, cost 3.50. -/
def sampleP3 : Product where
  id := "3"
  name := "LED Bulb 60W"
  description := "Energy efficient LED bulb, warm white"
  category := "Electrical"
  brand := "Philips"
  sku := "ELE-001"
  barcode := some "345678901"
  current_stock := 0
  min_stock_level := 20
  max_stock_level := 100
  cost_price := 3.5
  selling_price := 7.99
  supplier := "Philips Lighting"
  location := "C2-D1"
  created_at := 0
  updated_at := 0

/-- Seed product 4: PVC pipe, stock 8, min 10, max 30, cost 15.00. -/
def sampleP4 : Product where
  id := "4"
  name := "PVC Pipe 2in"
  description := "2 inch PVC pipe, 10ft length"
  category := "Plumbing"
  brand := "Charlotte"
  sku := "PLU-001"
  barcode := some "456789012"
  current_stock := 8
  min_stock_level := 10
  max_stock_level := 30
  cost_price := 15
  selling_price := 28.99
  supplier := "Charlotte Pipe Co"
  location := "E3-F2"
  created_at := 0
  updated_at := 0

/-- Seed product 5: paint brush set, stock 35, min 20, max 60, cost 18.00. -/
def sampleP5 : Product where
  id := "5"
  name := "Paint Brush Set"
  description := "Professional paint brush set, 5 pieces"
  category := "Paint & Supplies"
  brand := "Purdy"
  sku := "PAI-001"
  barcode := some "567890123"
  current_stock := 35
  min_stock_level := 20
  max_stock_level := 60
  cost_price := 18
  selling_price := 34.99
  supplier := "Purdy Corp"
  location := "D2-E1"
  created_at := 0
  updated_at := 0

/-- The seeded catalog of `initializeData`. -/
def sampleProducts : List Product :=
  [sampleP1, sampleP2, sampleP3, sampleP4, sampleP5]

/-! ### Claim C1: stock classification -/

/-- C1. For every product with non-negative stock fields (the data model's
domain), exactly one of the three stock states holds, and `classify`,
evaluated in precedence order, decides them: `OUT_OF_STOCK` iff
`current_stock = 0`, `LOW_STOCK` iff `0 < current_stock ≤ min_stock_level`,
`IN_STOCK` iff `current_stock > min_stock_level`. `classify` is a total
function, so the classification is total. -/
theorem classify_exhaustive_exclusive (p : Product)
    (h1 : 0 ≤ p.current_stock) (h2 : 0 ≤ p.min_stock_level) :
    ((isOutOfStock p).toNat + (isLowStock p).toNat + (isGoodStock p).toNat = 1) ∧
    (classify p = StockStatus.OUT_OF_STOCK ↔ p.current_stock = 0) ∧
    (classify p = StockStatus.LOW_STOCK ↔
      0 < p.current_stock ∧ p.current_stock ≤ p.min_stock_level) ∧
    (classify p = StockStatus.IN_STOCK ↔ p.min_stock_level < p.current_stock) := by
  have hout : isOutOfStock p = true ↔ p.current_stock = 0 := by
    simp [isOutOfStock]
  have hlow : isLowStock p = true ↔
      p.current_stock ≤ p.min_stock_level ∧ 0 < p.current_stock := by
    simp [isLowStock]
  have hgood : isGoodStock p = true ↔ p.min_stock_level < p.current_stock := by
    simp [isGoodStock]
  by_cases hz : p.current_stock = 0
  · have e1 : isOutOfStock p = true := hout.mpr hz
    have e2 : isLowStock p = false := by
      rw [Bool.eq_false_iff]
      intro ht
      have := hlow.mp ht
      omega
    have e3 : isGoodStock p = false := by
      rw [Bool.eq_false_iff]
      intro ht
      have := hgood.mp ht
      omega
    refine ⟨by simp [e1, e2, e3], ?_, ?_, ?_⟩ <;>
      simp [classify, e1, e2, e3] <;> omega
  · by_cases hl : p.current_stock ≤ p.min_stock_level
    · have e1 : isOutOfStock p = false := by
        rw [Bool.eq_false_iff]
        intro ht
        exact hz (hout.mp ht)
      have e2 : isLowStock p = true := hlow.mpr ⟨hl, by omega⟩
      have e3 : isGoodStock p = false := by
        rw [Bool.eq_false_iff]
        intro ht
        have := hgood.mp ht
        omega
      refine ⟨by simp [e1, e2, e3], ?_, ?_, ?_⟩ <;>
        simp [classify, e1, e2, e3] <;> omega
    · have e1 : isOutOfStock p = false := by
        rw [Bool.eq_false_iff]
        intro ht
        exact hz (hout.mp ht)
      have e2 : isLowStock p = false := by
        rw [Bool.eq_false_iff]
        intro ht
        have := hlow.mp ht
        omega
      have e3 : isGoodStock p = true := hgood.mpr (by omega)
      refine ⟨by simp [e1, e2, e3], ?_, ?_, ?_⟩ <;>
        simp [classify, e1, e2, e3] <;> omega

/-- Witness for C1 at seed product 2 (stock 5, min 15): low stock. -/
theorem classify_exhaustive_exclusive_witness :
    ((isOutOfStock sampleP2).toNat + (isLowStock sampleP2).toNat +
      (isGoodStock sampleP2).toNat = 1) ∧
    (classify sampleP2 = StockStatus.OUT_OF_STOCK ↔ sampleP2.current_stock = 0) ∧
    (classify sampleP2 = StockStatus.LOW_STOCK ↔
      0 < sampleP2.current_stock ∧
        sampleP2.current_stock ≤ sampleP2.min_stock_level) ∧
    (classify sampleP2 = StockStatus.IN_STOCK ↔
      sampleP2.min_stock_level < sampleP2.current_stock) :=
  classify_exhaustive_exclusive sampleP2 (by decide) (by decide)

/-! ### Claim C2: restock suggestion formula and floor -/

/-- C2. The restock suggestion equals
`max (max (max_stock_level - current_stock) (min_stock_level - current_stock)) 10`,
hence is at least 10 for every product, unconditionally. -/
theorem suggestedQuantity_formula_floor (p : Product) :
    suggestedQuantity p =
      max (max (p.max_stock_level - p.current_stock)
        (p.min_stock_level - p.current_stock)) 10 ∧
    10 ≤ suggestedQuantity p :=
  ⟨rfl, le_max_right _ 10⟩

/-- Witness for C2 at seed product 2 (stock 5, min 15, max 40):
the suggestion is 35 ≥ 10. -/
theorem suggestedQuantity_formula_floor_witness :
    suggestedQuantity sampleP2 =
      max (max (sampleP2.max_stock_level - sampleP2.current_stock)
        (sampleP2.min_stock_level - sampleP2.current_stock)) 10 ∧
    10 ≤ suggestedQuantity sampleP2 :=
  suggestedQuantity_formula_floor sampleP2

/-! ### Claim C5: monotonicity of the suggestion in current stock -/

/-- C5. With `min_stock_level` and `max_stock_level` fixed, the restock
suggestion is non-increasing as `current_stock` increases. -/
theorem suggestedQuantity_antitone (p q : Product)
    (hmin : p.min_stock_level = q.min_stock_level)
    (hmax : p.max_stock_level = q.max_stock_level)
    (hs : p.current_stock ≤ q.current_stock) :
    suggestedQuantity q ≤ suggestedQuantity p := by
  unfold suggestedQuantity
  rw [← hmin, ← hmax]
  have ha : p.max_stock_level - q.current_stock ≤
      p.max_stock_level - p.current_stock := by omega
  have hb : p.min_stock_level - q.current_stock ≤
      p.min_stock_level - p.current_stock := by omega
  exact max_le_max (max_le_max ha hb) le_rfl

/-- Witness for C5: seed product 1 (stock 25) versus the same thresholds at
stock 5 (seed product 1 restocked down is modelled by product 1 itself against
a lower-stock copy). Products 1 and 5 share no thresholds, so compare
product 1 with itself under reflexivity-discharged hypotheses. -/
theorem suggestedQuantity_antitone_witness :
    suggestedQuantity sampleP1 ≤
      suggestedQuantity { sampleP1 with current_stock := 5 } :=
  suggestedQuantity_antitone { sampleP1 with current_stock := 5 } sampleP1
    (by decide) (by decide) (by decide)

/-! ### Claim C7: low-stock alert list -/

/-- C7. The low-stock alert list contains only products classified
`LOW_STOCK`, has length at most 5, is an initial segment of the filtered
low-stock products (the first at-most-5 in arrival order), and is a sublist
of the catalog snapshot (order preserved). -/
theorem lowStockAlertList_spec (ps : List Product) :
    (∀ p ∈ lowStockAlertList ps, classify p = StockStatus.LOW_STOCK) ∧
    (lowStockAlertList ps).length ≤ 5 ∧
    (∃ t, lowStockAlertList ps ++ t = ps.filter isLowStock) ∧
    List.Sublist (lowStockAlertList ps) ps := by
  refine ⟨?_, ?_, ?_, ?_⟩
  · intro p hp
    have hmem : p ∈ ps.filter isLowStock :=
      List.take_sublist 5 _ |>.mem hp
    have hlow : isLowStock p = true := (List.mem_filter.mp hmem).2
    have : isOutOfStock p = false := by
      simp only [isLowStock, Bool.and_eq_true, decide_eq_true_eq] at hlow
      simp only [isOutOfStock, decide_eq_false_iff_not]
      omega
    simp [classify, this, hlow]
  · simp [lowStockAlertList]
  · exact ⟨(ps.filter isLowStock).drop 5, List.take_append_drop 5 _⟩
  · exact List.Sublist.trans (List.take_sublist 5 _) (List.filter_sublist ps)

/-- Witness for C7 on the seeded catalog: seed product 2 is in the alert
list and is classified low. -/
theorem lowStockAlertList_spec_witness :
    classify sampleP2 = StockStatus.LOW_STOCK :=
  (lowStockAlertList_spec sampleProducts).1 sampleP2 (by
    have h : lowStockAlertList sampleProducts = [sampleP2, sampleP4] := rfl
    rw [h]
    exact List.mem_cons_self _ _)

/-! ### Claim C9: clamping of the editable restock quantity -/

/-- C9. `updateQuantity` stores `max 0 quantity` on every matching item —
so the stored value saturates at 0 and is never negative — and preserves
non-negativity of the whole work list. -/
theorem updateQuantity_nonneg (items : List RestockItem) (productId : String)
    (quantity : Int) :
    (∀ i ∈ updateQuantity items productId quantity,
      i.product.id = productId →
        i.actualQuantity = max 0 quantity ∧ 0 ≤ i.actualQuantity) ∧
    ((∀ i ∈ items, 0 ≤ i.actualQuantity) →
      ∀ i ∈ updateQuantity items productId quantity, 0 ≤ i.actualQuantity) := by
  constructor
  · intro i hi hid
    obtain ⟨a, ha, rfl⟩ := List.mem_map.mp hi
    by_cases h : a.product.id == productId
    · simp only [updateQuantity] at *
      simp [h, le_max_left]
    · simp only [h, Bool.false_eq_true, if_neg, ite_false] at hid ⊢
      simp only [beq_iff_eq] at h
      exact absurd hid h
  · intro hpos i hi
    obtain ⟨a, ha, rfl⟩ := List.mem_map.mp hi
    by_cases h : a.product.id == productId
    · simp [h, le_max_left]
    · simpa [h] using hpos a ha

/-- Witness for C9: requesting −7 on a matching item stores 0. -/
theorem updateQuantity_nonneg_witness :
    ({ product := sampleP2, suggestedQuantity := 35, actualQuantity := 0 } :
        RestockItem).actualQuantity = max 0 (-7) ∧
    0 ≤ ({ product := sampleP2, suggestedQuantity := 35, actualQuantity := 0 } :
        RestockItem).actualQuantity :=
  (updateQuantity_nonneg
      [{ product := sampleP2, suggestedQuantity := 35, actualQuantity := 35 }]
      "2" (-7)).1
    { product := sampleP2, suggestedQuantity := 35, actualQuantity := 0 }
    (by
      have h : updateQuantity
          [{ product := sampleP2, suggestedQuantity := 35, actualQuantity := 35 }]
          "2" (-7) =
          [{ product := sampleP2, suggestedQuantity := 35, actualQuantity := 0 }] := rfl
      rw [h]
      exact List.mem_cons_self _ _)
    rfl

/-! ### Claim C8: delete semantics -/

/-- C8. `deleteProduct` returns `false` and leaves the catalog unchanged
when no record has the id; it returns `true` exactly when such a record
exists, in which case every surviving record has a different id, the result
is a sublist of the catalog (records and order preserved), and the size
strictly decreased. -/
theorem deleteProduct_spec (id : String) (ps : List Product) :
    ((∀ p ∈ ps, ¬ p.id = id) → deleteProduct id ps = (false, ps)) ∧
    ((deleteProduct id ps).1 = false → (deleteProduct id ps).2 = ps) ∧
    ((deleteProduct id ps).1 = true ↔ ∃ p ∈ ps, p.id = id) ∧
    ((deleteProduct id ps).1 = true →
      (∀ p ∈ (deleteProduct id ps).2, ¬ p.id = id) ∧
      List.Sublist (deleteProduct id ps).2 ps ∧
      (deleteProduct id ps).2.length < ps.length) := by
  have hkey : (ps.filter (fun p => !(p.id == id))).length = ps.length ↔
      ∀ p ∈ ps, ¬ p.id = id := by
    rw [List.filter_length_eq_length]
    simp
  by_cases h : (ps.filter (fun p => !(p.id == id))).length = ps.length
  · have hres : deleteProduct id ps = (false, ps) := by
      simp [deleteProduct, h]
    rw [hres]
    refine ⟨fun _ => rfl, fun _ => rfl, ?_, by simp⟩
    simp only [Bool.false_eq_true, false_iff]
    rintro ⟨p, hp, hpid⟩
    exact (hkey.mp h p hp) hpid
  · have hres : deleteProduct id ps =
        (true, ps.filter (fun p => !(p.id == id))) := by
      simp [deleteProduct, h]
    rw [hres]
    refine ⟨fun hall => absurd (hkey.mpr hall) h, by simp, ?_, fun _ => ⟨?_, ?_, ?_⟩⟩
    · simp only [true_iff]
      by_contra hne
      push_neg at hne
      exact h (hkey.mpr hne)
    · intro p hp
      have := (List.mem_filter.mp hp).2
      simpa using this
    · exact List.filter_sublist ps
    · exact Nat.lt_of_le_of_ne ((List.filter_sublist ps).length_le) h

/-- Witness for C8: deleting a nonexistent id from the seeded catalog fails
and leaves it unchanged. -/
theorem deleteProduct_spec_witness :
    deleteProduct "99" sampleProducts = (false, sampleProducts) :=
  (deleteProduct_spec "99" sampleProducts).1 (by decide)

/-! ### Claim C4: stock-level distribution -/

/-- Helper: with non-negative stock fields, exactly one of the three stock
filters accepts a product. -/
theorem stockFlags_partition (p : Product)
    (h1 : 0 ≤ p.current_stock) (h2 : 0 ≤ p.min_stock_level) :
    (isOutOfStock p).toNat + (isLowStock p).toNat + (isGoodStock p).toNat = 1 := by
  have hout : isOutOfStock p = true ↔ p.current_stock = 0 := by
    simp [isOutOfStock]
  have hlow : isLowStock p = true ↔
      p.current_stock ≤ p.min_stock_level ∧ 0 < p.current_stock := by
    simp [isLowStock]
  have hgood : isGoodStock p = true ↔ p.min_stock_level < p.current_stock := by
    simp [isGoodStock]
  by_cases hz : p.current_stock = 0
  · have e1 : isOutOfStock p = true := hout.mpr hz
    have e2 : isLowStock p = false := by
      rw [Bool.eq_false_iff]
      intro ht
      have := hlow.mp ht
      omega
    have e3 : isGoodStock p = false := by
      rw [Bool.eq_false_iff]
      intro ht
      have := hgood.mp ht
      omega
    simp [e1, e2, e3]
  · by_cases hl : p.current_stock ≤ p.min_stock_level
    · have e1 : isOutOfStock p = false := by
        rw [Bool.eq_false_iff]
        intro ht
        exact hz (hout.mp ht)
      have e2 : isLowStock p = true := hlow.mpr ⟨hl, by omega⟩
      have e3 : isGoodStock p = false := by
        rw [Bool.eq_false_iff]
        intro ht
        have := hgood.mp ht
        omega
      simp [e1, e2, e3]
    · have e1 : isOutOfStock p = false := by
        rw [Bool.eq_false_iff]
        intro ht
        exact hz (hout.mp ht)
      have e2 : isLowStock p = false := by
        rw [Bool.eq_false_iff]
        intro ht
        have := hlow.mp ht
        omega
      have e3 : isGoodStock p = true := hgood.mpr (by omega)
      simp [e1, e2, e3]

/-- Helper: under the data model's non-negativity invariant the three stock
buckets partition the catalog. -/
theorem stock_counts_partition (ps : List Product)
    (hwf : ∀ p ∈ ps, 0 ≤ p.current_stock ∧ 0 ≤ p.min_stock_level) :
    goodStockCount ps + lowStockCount ps + outOfStockCount ps = ps.length := by
  induction ps with
  | nil => rfl
  | cons p ps ih =>
    have hp := hwf p (List.mem_cons_self _ _)
    have hone := stockFlags_partition p hp.1 hp.2
    have hrest := ih (fun q hq => hwf q (List.mem_cons_of_mem _ hq))
    simp only [goodStockCount, lowStockCount, outOfStockCount,
      List.filter_cons, List.length_cons] at *
    cases hb1 : isGoodStock p <;> cases hb2 : isLowStock p <;>
      cases hb3 : isOutOfStock p <;> simp_all <;> omega

/-- C4 counterexample: on the empty catalog the code reports no rows at all
(the `: []` branch of `Reports.tsx` line 63), not three buckets with zero
counts and percentages. -/
theorem stockLevels_empty_cex :
    stockLevels ([] : List Product) = [] ∧
    (stockLevels ([] : List Product)).length ≠ 3 := by
  constructor <;> simp [stockLevels]

/-- C4 (amended). `stockLevels` is empty exactly when the catalog is empty;
on a nonempty catalog every row's percentage equals
`100 * count / total_products`, and — under the data model's non-negativity
invariant — the three percentages sum to exactly 100. -/
theorem stockLevels_spec (ps : List Product)
    (hwf : ∀ p ∈ ps, 0 ≤ p.current_stock ∧ 0 ≤ p.min_stock_level) :
    (stockLevels ps = [] ↔ ps = []) ∧
    (∀ row ∈ stockLevels ps,
      row.percentage = 100 * (row.count : ℚ) / (ps.length : ℚ)) ∧
    (ps ≠ [] → ((stockLevels ps).map (fun row => row.percentage)).sum = 100) := by
  by_cases hps : ps = []
  · subst hps
    refine ⟨by simp [stockLevels], by simp [stockLevels], fun hne => absurd rfl hne⟩
  · have ht : 0 < ps.length := List.length_pos.mpr hps
    have htQ : (ps.length : ℚ) ≠ 0 := Nat.cast_ne_zero.mpr (by omega)
    refine ⟨by simp [stockLevels, ht, hps], ?_, ?_⟩
    · intro row hrow
      simp only [stockLevels, ht, if_pos, List.mem_cons, List.mem_singleton,
        List.not_mem_nil, or_false] at hrow
      rcases hrow with rfl | rfl | rfl <;> simp <;> ring
    · intro _
      have hsum := stock_counts_partition ps hwf
      have hcast : ((goodStockCount ps : ℚ) + (lowStockCount ps : ℚ) +
          (outOfStockCount ps : ℚ)) = (ps.length : ℚ) := by
        exact_mod_cast hsum
      simp only [stockLevels, ht, if_pos, List.map_cons, List.map_nil,
        List.sum_cons, List.sum_nil, add_zero]
      field_simp
      linear_combination 100 * hcast

/-- Witness for C4 (amended) on the seeded catalog: the three percentages
sum to 100. -/
theorem stockLevels_spec_witness :
    ((stockLevels sampleProducts).map (fun row => row.percentage)).sum = 100 :=
  (stockLevels_spec sampleProducts (by decide)).2.2 (by decide)

/-! ### Claim C10: update is local -/

/-- C10. `updateProduct` on a missing id returns `none` and leaves the
catalog unchanged; it always preserves the catalog length; every slot other
than the matched index is unchanged (so the relative order of the other
records is unchanged); and on a hit the matched slot and the returned value
are the patched record, whose `updated_at` is refreshed to the current
instant. -/
theorem updateProduct_spec (ps : List Product) (id : String) (u : ProductPatch)
    (now : Nat) :
    ((∀ p ∈ ps, ¬ p.id = id) → updateProduct ps id u now = (none, ps)) ∧
    ((updateProduct ps id u now).2.length = ps.length) ∧
    (∀ j, j ≠ ps.findIdx (fun p => p.id == id) →
      (updateProduct ps id u now).2[j]? = ps[j]?) ∧
    (∀ h : ps.findIdx (fun p => p.id == id) < ps.length,
      (updateProduct ps id u now).1 =
        some (applyPatch (ps.get ⟨ps.findIdx (fun p => p.id == id), h⟩) u now) ∧
      (updateProduct ps id u now).2[ps.findIdx (fun p => p.id == id)]? =
        some (applyPatch (ps.get ⟨ps.findIdx (fun p => p.id == id), h⟩) u now) ∧
      (applyPatch (ps.get ⟨ps.findIdx (fun p => p.id == id), h⟩) u now).updated_at
        = now) := by
  by_cases h : ps.findIdx (fun p => p.id == id) < ps.length
  · have hres : updateProduct ps id u now =
        (some (applyPatch (ps.get ⟨ps.findIdx (fun p => p.id == id), h⟩) u now),
          ps.set (ps.findIdx (fun p => p.id == id))
            (applyPatch (ps.get ⟨ps.findIdx (fun p => p.id == id), h⟩) u now)) := by
      simp [updateProduct, h]
    rw [hres]
    refine ⟨?_, by simp, ?_, ?_⟩
    · intro hall
      have : ps.findIdx (fun p => p.id == id) = ps.length :=
        List.findIdx_eq_length.mpr (fun x hx => by
          simpa using hall x hx)
      omega
    · intro j hj
      exact List.getElem?_set_ne (by omega)
    · intro h'
      exact ⟨rfl, List.getElem?_set_self h, rfl⟩
  · have hres : updateProduct ps id u now = (none, ps) := by
      simp [updateProduct, h]
    rw [hres]
    exact ⟨fun _ => rfl, rfl, fun j hj => rfl, fun h' => absurd h' h⟩

/-- Witness for C10: updating a nonexistent id leaves the seeded catalog
unchanged and returns nothing. -/
theorem updateProduct_spec_witness :
    updateProduct sampleProducts "99" {} 7 = (none, sampleProducts) :=
  (updateProduct_spec sampleProducts "99" {} 7).1 (by decide)

/-! ### Claim C6: category breakdown -/

/-- `bumpRow` never changes a row's category. -/
theorem bumpRow_category (p : Product) (r : CategoryRow) :
    (bumpRow p r).category = r.category := by
  unfold bumpRow
  split <;> rfl

/-- Bumping leaves the accumulator's category list unchanged. -/
theorem catsOf_map_bump (p : Product) (acc : List CategoryRow) :
    catsOf (acc.map (bumpRow p)) = catsOf acc := by
  simp [catsOf, List.map_map, Function.comp, bumpRow_category]

/-- The `any` test of `addToBreakdown` detects category membership. -/
theorem anyCat_iff (acc : List CategoryRow) (p : Product) :
    (acc.any (fun r => r.category == p.category) = true) ↔
      p.category ∈ catsOf acc := by
  simp [catsOf, List.any_eq_true]

/-- `addToBreakdown` on a seen category updates rows in place. -/
theorem addToBreakdown_of_mem {acc : List CategoryRow} {p : Product}
    (hmem : p.category ∈ catsOf acc) :
    addToBreakdown acc p = acc.map (bumpRow p) := by
  unfold addToBreakdown
  rw [if_pos ((anyCat_iff acc p).mpr hmem)]

/-- `addToBreakdown` on a new category appends a fresh row. -/
theorem addToBreakdown_of_not_mem {acc : List CategoryRow} {p : Product}
    (hmem : p.category ∉ catsOf acc) :
    addToBreakdown acc p = acc ++ [⟨p.category, 1, lineValue p⟩] := by
  unfold addToBreakdown
  rw [if_neg (fun h => hmem ((anyCat_iff acc p).mp h))]

/-- Categories after one accumulation step. -/
theorem mem_catsOf_addToBreakdown (acc : List CategoryRow) (p : Product)
    (c : String) :
    c ∈ catsOf (addToBreakdown acc p) ↔ c ∈ catsOf acc ∨ c = p.category := by
  by_cases hmem : p.category ∈ catsOf acc
  · rw [addToBreakdown_of_mem hmem, catsOf_map_bump]
    constructor
    · exact Or.inl
    · rintro (h | rfl)
      exacts [h, hmem]
  · rw [addToBreakdown_of_not_mem hmem]
    simp [catsOf]

/-- Distinct categories are preserved by one accumulation step. -/
theorem nodup_catsOf_addToBreakdown {acc : List CategoryRow} {p : Product}
    (hnd : (catsOf acc).Nodup) :
    (catsOf (addToBreakdown acc p)).Nodup := by
  by_cases hmem : p.category ∈ catsOf acc
  · rw [addToBreakdown_of_mem hmem, catsOf_map_bump]
    exact hnd
  · rw [addToBreakdown_of_not_mem hmem]
    have he : catsOf (acc ++ [⟨p.category, 1, lineValue p⟩]) =
        catsOf acc ++ [p.category] := by
      simp [catsOf]
    rw [he, List.nodup_append]
    exact ⟨hnd, List.nodup_singleton _, by
      intro a ha hb
      simp only [List.mem_singleton] at hb
      exact hmem (hb ▸ ha)⟩

/-- `baseCount` of the empty accumulator. -/
theorem baseCount_nil (c : String) : baseCount [] c = 0 := rfl

/-- `baseValue` of the empty accumulator. -/
theorem baseValue_nil (c : String) : baseValue [] c = 0 := rfl

/-- `baseCount` unfolds over a cons. -/
theorem baseCount_cons (x : CategoryRow) (l : List CategoryRow) (c : String) :
    baseCount (x :: l) c =
      (if x.category = c then x.count else 0) + baseCount l c := by
  simp only [baseCount, List.filter_cons]
  by_cases h : x.category = c
  · simp [h]
  · simp [h]

/-- `baseValue` unfolds over a cons. -/
theorem baseValue_cons (x : CategoryRow) (l : List CategoryRow) (c : String) :
    baseValue (x :: l) c =
      (if x.category = c then x.value else 0) + baseValue l c := by
  simp only [baseValue, List.filter_cons]
  by_cases h : x.category = c
  · simp [h]
  · simp [h]

/-- An unseen category has no recorded count. -/
theorem baseCount_eq_zero {acc : List CategoryRow} {c : String}
    (h : c ∉ catsOf acc) : baseCount acc c = 0 := by
  have hf : acc.filter (fun r => r.category == c) = [] := by
    rw [List.filter_eq_nil_iff]
    intro r hr hrc
    simp only [beq_iff_eq] at hrc
    exact h (by simp [catsOf]; exact ⟨r, hr, hrc⟩)
  simp [baseCount, hf]

/-- An unseen category has no recorded value. -/
theorem baseValue_eq_zero {acc : List CategoryRow} {c : String}
    (h : c ∉ catsOf acc) : baseValue acc c = 0 := by
  have hf : acc.filter (fun r => r.category == c) = [] := by
    rw [List.filter_eq_nil_iff]
    intro r hr hrc
    simp only [beq_iff_eq] at hrc
    exact h (by simp [catsOf]; exact ⟨r, hr, hrc⟩)
  simp [baseValue, hf]

/-- With distinct categories, a member row is the whole count for its
category. -/
theorem baseCount_self {acc : List CategoryRow} {r : CategoryRow}
    (hnd : (catsOf acc).Nodup) (hr : r ∈ acc) :
    baseCount acc r.category = r.count := by
  induction acc with
  | nil => cases hr
  | cons x l ih =>
    have hx : x.category ∉ catsOf l ∧ (catsOf l).Nodup := by
      simpa [catsOf] using hnd
    rcases List.mem_cons.mp hr with rfl | hmem
    · rw [baseCount_cons, if_pos rfl, baseCount_eq_zero hx.1, add_zero]
    · have hne : x.category ≠ r.category := by
        intro he
        exact hx.1 (he ▸ (by simp [catsOf]; exact ⟨r, hmem, rfl⟩))
      rw [baseCount_cons, if_neg hne, ih hx.2 hmem, Nat.zero_add]

/-- With distinct categories, a member row is the whole value for its
category. -/
theorem baseValue_self {acc : List CategoryRow} {r : CategoryRow}
    (hnd : (catsOf acc).Nodup) (hr : r ∈ acc) :
    baseValue acc r.category = r.value := by
  induction acc with
  | nil => cases hr
  | cons x l ih =>
    have hx : x.category ∉ catsOf l ∧ (catsOf l).Nodup := by
      simpa [catsOf] using hnd
    rcases List.mem_cons.mp hr with rfl | hmem
    · rw [baseValue_cons, if_pos rfl, baseValue_eq_zero hx.1, add_zero]
    · have hne : x.category ≠ r.category := by
        intro he
        exact hx.1 (he ▸ (by simp [catsOf]; exact ⟨r, hmem, rfl⟩))
      rw [baseValue_cons, if_neg hne, ih hx.2 hmem, zero_add]

/-- Bumping a category that does not occur leaves the accumulator alone. -/
theorem map_bump_of_not_mem {acc : List CategoryRow} {p : Product}
    (h : p.category ∉ catsOf acc) : acc.map (bumpRow p) = acc := by
  induction acc with
  | nil => rfl
  | cons x l ih =>
    have h1 : x.category ≠ p.category := by
      intro he
      exact h (by simp [catsOf, he])
    have h2 : p.category ∉ catsOf l := by
      intro hm
      exact h (by simp [catsOf] at hm ⊢; exact Or.inr hm)
    rw [List.map_cons, ih h2]
    congr 1
    unfold bumpRow
    rw [if_neg (by simp [h1])]

/-- Bumping does not change counts recorded for other categories. -/
theorem baseCount_map_bump_ne {acc : List CategoryRow} {p : Product}
    {c : String} (hcp : c ≠ p.category) :
    baseCount (acc.map (bumpRow p)) c = baseCount acc c := by
  induction acc with
  | nil => rfl
  | cons x l ih =>
    rw [List.map_cons, baseCount_cons, baseCount_cons, ih, bumpRow_category]
    by_cases hxc : x.category = c
    · have hxp : x.category ≠ p.category := by
        rw [hxc]; exact hcp
      have : (bumpRow p x).count = x.count := by
        unfold bumpRow
        rw [if_neg (by simp [hxp])]
      rw [this]
    · rw [if_neg hxc, if_neg hxc]

/-- Bumping does not change values recorded for other categories. -/
theorem baseValue_map_bump_ne {acc : List CategoryRow} {p : Product}
    {c : String} (hcp : c ≠ p.category) :
    baseValue (acc.map (bumpRow p)) c = baseValue acc c := by
  induction acc with
  | nil => rfl
  | cons x l ih =>
    rw [List.map_cons, baseValue_cons, baseValue_cons, ih, bumpRow_category]
    by_cases hxc : x.category = c
    · have hxp : x.category ≠ p.category := by
        rw [hxc]; exact hcp
      have : (bumpRow p x).value = x.value := by
        unfold bumpRow
        rw [if_neg (by simp [hxp])]
      rw [this]
    · rw [if_neg hxc, if_neg hxc]

/-- Bumping a present category adds one to its recorded count. -/
theorem baseCount_map_bump_self {acc : List CategoryRow} {p : Product}
    (hnd : (catsOf acc).Nodup) (hmem : p.category ∈ catsOf acc) :
    baseCount (acc.map (bumpRow p)) p.category =
      baseCount acc p.category + 1 := by
  induction acc with
  | nil => simp [catsOf] at hmem
  | cons x l ih =>
    have hx : x.category ∉ catsOf l ∧ (catsOf l).Nodup := by
      simpa [catsOf] using hnd
    rw [List.map_cons, baseCount_cons, baseCount_cons, bumpRow_category]
    by_cases hxp : x.category = p.category
    · have hnotl : p.category ∉ catsOf l := hxp ▸ hx.1
      have hb : (bumpRow p x).count = x.count + 1 := by
        unfold bumpRow
        rw [if_pos (by simp [hxp])]
      rw [hb, map_bump_of_not_mem hnotl]
      simp only [if_pos hxp]
      omega
    · have hml : p.category ∈ catsOf l := by
        rcases (by simpa [catsOf] using hmem : p.category = x.category ∨
            p.category ∈ catsOf l) with he | hm
        · exact absurd he.symm hxp
        · exact hm
      have hb : (bumpRow p x).count = x.count := by
        unfold bumpRow
        rw [if_neg (by simp [hxp])]
      rw [hb, if_neg hxp, ih hx.2 hml]
      omega

/-- Bumping a present category adds the product's line value to its
recorded value. -/
theorem baseValue_map_bump_self {acc : List CategoryRow} {p : Product}
    (hnd : (catsOf acc).Nodup) (hmem : p.category ∈ catsOf acc) :
    baseValue (acc.map (bumpRow p)) p.category =
      baseValue acc p.category + lineValue p := by
  induction acc with
  | nil => simp [catsOf] at hmem
  | cons x l ih =>
    have hx : x.category ∉ catsOf l ∧ (catsOf l).Nodup := by
      simpa [catsOf] using hnd
    rw [List.map_cons, baseValue_cons, baseValue_cons, bumpRow_category]
    by_cases hxp : x.category = p.category
    · have hnotl : p.category ∉ catsOf l := hxp ▸ hx.1
      have hb : (bumpRow p x).value = x.value + lineValue p := by
        unfold bumpRow
        rw [if_pos (by simp [hxp])]
      rw [hb, map_bump_of_not_mem hnotl]
      simp only [if_pos hxp]
      ring
    · have hml : p.category ∈ catsOf l := by
        rcases (by simpa [catsOf] using hmem : p.category = x.category ∨
            p.category ∈ catsOf l) with he | hm
        · exact absurd he.symm hxp
        · exact hm
      have hb : (bumpRow p x).value = x.value := by
        unfold bumpRow
        rw [if_neg (by simp [hxp])]
      rw [hb, if_neg hxp, ih hx.2 hml]
      ring

/-- One accumulation step adds one to the count recorded for the product's
category and nothing elsewhere. -/
theorem baseCount_step {acc : List CategoryRow} {p : Product}
    (hnd : (catsOf acc).Nodup) (c : String) :
    baseCount (addToBreakdown acc p) c =
      baseCount acc c + (if c = p.category then 1 else 0) := by
  by_cases hmem : p.category ∈ catsOf acc
  · rw [addToBreakdown_of_mem hmem]
    by_cases hcp : c = p.category
    · subst hcp
      rw [baseCount_map_bump_self hnd hmem, if_pos rfl]
    · rw [baseCount_map_bump_ne hcp, if_neg hcp, add_zero]
  · rw [addToBreakdown_of_not_mem hmem]
    unfold baseCount
    rw [List.filter_append]
    by_cases hcp : c = p.category
    · subst hcp
      simp
    · have hne : ¬ p.category = c := fun he => hcp he.symm
      have hfil : ([(⟨p.category, 1, lineValue p⟩ : CategoryRow)].filter
          (fun r => r.category == c)) = [] := by
        simp [hne]
      rw [hfil]
      simp [hcp]

/-- One accumulation step adds the line value to the value recorded for the
product's category and nothing elsewhere. -/
theorem baseValue_step {acc : List CategoryRow} {p : Product}
    (hnd : (catsOf acc).Nodup) (c : String) :
    baseValue (addToBreakdown acc p) c =
      baseValue acc c + (if c = p.category then lineValue p else 0) := by
  by_cases hmem : p.category ∈ catsOf acc
  · rw [addToBreakdown_of_mem hmem]
    by_cases hcp : c = p.category
    · subst hcp
      rw [baseValue_map_bump_self hnd hmem, if_pos rfl]
    · rw [baseValue_map_bump_ne hcp, if_neg hcp, add_zero]
  · rw [addToBreakdown_of_not_mem hmem]
    unfold baseValue
    rw [List.filter_append]
    by_cases hcp : c = p.category
    · subst hcp
      simp
    · have hne : ¬ p.category = c := fun he => hcp he.symm
      have hfil : ([(⟨p.category, 1, lineValue p⟩ : CategoryRow)].filter
          (fun r => r.category == c)) = [] := by
        simp [hne]
      rw [hfil]
      simp [hcp]

/-- Bumping a present category grows the total of all counts by one. -/
theorem sumCounts_map_bump {acc : List CategoryRow} {p : Product}
    (hnd : (catsOf acc).Nodup) (hmem : p.category ∈ catsOf acc) :
    ((acc.map (bumpRow p)).map (fun r => r.count)).sum =
      ((acc.map (fun r => r.count)).sum) + 1 := by
  induction acc with
  | nil => simp [catsOf] at hmem
  | cons x l ih =>
    have hx : x.category ∉ catsOf l ∧ (catsOf l).Nodup := by
      simpa [catsOf] using hnd
    rw [List.map_cons, List.map_cons, List.sum_cons, List.map_cons,
      List.sum_cons]
    by_cases hxp : x.category = p.category
    · have hnotl : p.category ∉ catsOf l := hxp ▸ hx.1
      have hb : (bumpRow p x).count = x.count + 1 := by
        unfold bumpRow
        rw [if_pos (by simp [hxp])]
      rw [hb, map_bump_of_not_mem hnotl]
      omega
    · have hml : p.category ∈ catsOf l := by
        rcases (by simpa [catsOf] using hmem : p.category = x.category ∨
            p.category ∈ catsOf l) with he | hm
        · exact absurd he.symm hxp
        · exact hm
      have hb : (bumpRow p x).count = x.count := by
        unfold bumpRow
        rw [if_neg (by simp [hxp])]
      rw [hb, ih hx.2 hml]
      omega

/-- One accumulation step grows the total of all counts by one. -/
theorem sumCounts_step {acc : List CategoryRow} {p : Product}
    (hnd : (catsOf acc).Nodup) :
    ((addToBreakdown acc p).map (fun r => r.count)).sum =
      ((acc.map (fun r => r.count)).sum) + 1 := by
  by_cases hmem : p.category ∈ catsOf acc
  · rw [addToBreakdown_of_mem hmem]
    exact sumCounts_map_bump hnd hmem
  · rw [addToBreakdown_of_not_mem hmem]
    simp

/-- The accumulation loop keeps categories distinct. -/
theorem nodup_groupFold (ps : List Product) :
    ∀ acc, (catsOf acc).Nodup →
      (catsOf (ps.foldl addToBreakdown acc)).Nodup := by
  induction ps with
  | nil => exact fun acc h => h
  | cons p ps ih =>
    intro acc h
    exact ih _ (nodup_catsOf_addToBreakdown h)

/-- Categories after the accumulation loop: the accumulator's plus the
processed products'. -/
theorem mem_catsOf_groupFold (ps : List Product) :
    ∀ (acc : List CategoryRow) (c : String),
      c ∈ catsOf (ps.foldl addToBreakdown acc) ↔
        c ∈ catsOf acc ∨ c ∈ ps.map (fun p => p.category) := by
  induction ps with
  | nil =>
    intro acc c
    simp
  | cons p ps ih =>
    intro acc c
    rw [List.foldl_cons, ih, mem_catsOf_addToBreakdown]
    simp only [List.map_cons, List.mem_cons]
    tauto

/-- The accumulation loop adds one to the total of all counts per product. -/
theorem sumCounts_groupFold (ps : List Product) :
    ∀ acc, (catsOf acc).Nodup →
      ((ps.foldl addToBreakdown acc).map (fun r => r.count)).sum =
        ((acc.map (fun r => r.count)).sum) + ps.length := by
  induction ps with
  | nil =>
    intro acc _
    simp
  | cons p ps ih =>
    intro acc hnd
    rw [List.foldl_cons, ih _ (nodup_catsOf_addToBreakdown hnd),
      sumCounts_step hnd, List.length_cons]
    omega

/-- Each row produced by the accumulation loop carries exactly the number
and total line value of the matching products, on top of what the
accumulator already recorded. -/
theorem rows_groupFold (ps : List Product) :
    ∀ acc, (catsOf acc).Nodup →
      ∀ r ∈ ps.foldl addToBreakdown acc,
        r.count = baseCount acc r.category +
          (ps.filter (fun q => q.category == r.category)).length ∧
        r.value = baseValue acc r.category +
          ((ps.filter (fun q => q.category == r.category)).map lineValue).sum := by
  induction ps with
  | nil =>
    intro acc hnd r hr
    simp only [List.foldl_nil] at hr
    simp [baseCount_self hnd hr, baseValue_self hnd hr]
  | cons p ps ih =>
    intro acc hnd r hr
    rw [List.foldl_cons] at hr
    obtain ⟨hc, hv⟩ := ih _ (nodup_catsOf_addToBreakdown hnd) r hr
    rw [baseCount_step hnd] at hc
    rw [baseValue_step hnd] at hv
    constructor
    · by_cases hpc : p.category = r.category
      · have hb : (p.category == r.category) = true := by simp [hpc]
        rw [hc, if_pos (show r.category = p.category from hpc.symm),
          List.filter_cons, hb]
        simp only [if_pos, List.length_cons, ite_true]
        omega
      · have hb : (p.category == r.category) = false := by simp [hpc]
        have hrc : ¬ r.category = p.category := fun he => hpc he.symm
        rw [hc, if_neg hrc, List.filter_cons, hb]
        simp
    · by_cases hpc : p.category = r.category
      · have hb : (p.category == r.category) = true := by simp [hpc]
        rw [hv, if_pos (show r.category = p.category from hpc.symm),
          List.filter_cons, hb]
        simp only [ite_true, List.map_cons, List.sum_cons]
        ring
      · have hb : (p.category == r.category) = false := by simp [hpc]
        have hrc : ¬ r.category = p.category := fun he => hpc he.symm
        rw [hv, if_neg hrc, List.filter_cons, hb]
        simp

/-- `insertRow` inserts its row and permutes nothing else. -/
theorem insertRow_perm (r : CategoryRow) (l : List CategoryRow) :
    List.Perm (insertRow r l) (r :: l) := by
  induction l with
  | nil => exact List.Perm.refl _
  | cons x xs ih =>
    by_cases hc : x.count ≤ r.count
    · rw [show insertRow r (x :: xs) = r :: x :: xs from by
        simp [insertRow, hc]]
    · rw [show insertRow r (x :: xs) = x :: insertRow r xs from by
        simp [insertRow, hc]]
      exact (ih.cons x).trans (List.Perm.swap r x xs)

/-- `sortRows` permutes its input. -/
theorem sortRows_perm (l : List CategoryRow) :
    List.Perm (sortRows l) l := by
  induction l with
  | nil => exact List.Perm.refl _
  | cons x xs ih =>
    exact (insertRow_perm x (sortRows xs)).trans (ih.cons x)

/-- Stable insertion keeps rows pairwise in descending count order, with the
underlying relation `R` holding across equal counts, provided the inserted
row bears `R` to every present row. -/
theorem insertRow_pairwise {R : CategoryRow → CategoryRow → Prop}
    {r : CategoryRow} {l : List CategoryRow}
    (hl : l.Pairwise (fun a b => b.count < a.count ∨
      (a.count = b.count ∧ R a b)))
    (hr : ∀ x ∈ l, R r x) :
    (insertRow r l).Pairwise (fun a b => b.count < a.count ∨
      (a.count = b.count ∧ R a b)) := by
  induction l with
  | nil => simp [insertRow]
  | cons x xs ih =>
    rw [List.pairwise_cons] at hl
    by_cases hc : x.count ≤ r.count
    · rw [show insertRow r (x :: xs) = r :: x :: xs from by
        simp [insertRow, hc]]
      rw [List.pairwise_cons]
      constructor
      · intro z hz
        rcases List.mem_cons.mp hz with rfl | hzs
        · rcases Nat.eq_or_lt_of_le hc with he | hlt
          · exact Or.inr ⟨he.symm, hr z (List.mem_cons_self _ _)⟩
          · exact Or.inl hlt
        · have hxz := hl.1 z hzs
          have hz_le : z.count ≤ x.count := by
            rcases hxz with h | h
            · omega
            · omega
          have hzr : z.count ≤ r.count := le_trans hz_le hc
          rcases Nat.eq_or_lt_of_le hzr with he | hlt
          · exact Or.inr ⟨he.symm, hr z (List.mem_cons_of_mem _ hzs)⟩
          · exact Or.inl hlt
      · rw [List.pairwise_cons]
        exact ⟨hl.1, hl.2⟩
    · rw [show insertRow r (x :: xs) = x :: insertRow r xs from by
        simp [insertRow, hc]]
      rw [List.pairwise_cons]
      constructor
      · intro z hz
        have hz' : z ∈ r :: xs := (insertRow_perm r xs).subset hz
        rcases List.mem_cons.mp hz' with rfl | hzs
        · exact Or.inl (by omega)
        · exact hl.1 z hzs
      · exact ih hl.2 (fun z hz => hr z (List.mem_cons_of_mem _ hz))

/-- Stable sort of a pairwise-`R` list is pairwise ordered by descending
count with `R` across equal counts: stability. -/
theorem sortRows_pairwise {R : CategoryRow → CategoryRow → Prop}
    {l : List CategoryRow} (hl : l.Pairwise R) :
    (sortRows l).Pairwise (fun a b => b.count < a.count ∨
      (a.count = b.count ∧ R a b)) := by
  induction l with
  | nil => simp [sortRows]
  | cons x xs ih =>
    rw [List.pairwise_cons] at hl
    exact insertRow_pairwise (ih hl.2)
      (fun z hz => hl.1 z ((sortRows_perm xs).subset hz))

/-- The accumulation loop lists groups in first-encounter order: the first
occurrence index (in the full catalog) of each row's category is strictly
increasing along the accumulator. -/
theorem groupFold_order (ps0 : List Product) :
    ∀ (ps pre : List Product) (acc : List CategoryRow),
      ps0 = pre ++ ps →
      (∀ c, c ∈ catsOf acc ↔ c ∈ pre.map (fun p => p.category)) →
      acc.Pairwise (fun a b =>
        ps0.findIdx (fun p => p.category == a.category) <
          ps0.findIdx (fun p => p.category == b.category)) →
      (ps.foldl addToBreakdown acc).Pairwise (fun a b =>
        ps0.findIdx (fun p => p.category == a.category) <
          ps0.findIdx (fun p => p.category == b.category)) := by
  intro ps
  induction ps with
  | nil =>
    intro pre acc _ _ hpair
    exact hpair
  | cons p ps ih =>
    intro pre acc hsplit hcats hpair
    rw [List.foldl_cons]
    apply ih (pre ++ [p])
    · rw [List.append_assoc]
      simpa using hsplit
    · intro c
      rw [mem_catsOf_addToBreakdown, hcats]
      simp [List.mem_append]
    · by_cases hmem : p.category ∈ catsOf acc
      · rw [addToBreakdown_of_mem hmem, List.pairwise_map]
        refine hpair.imp ?_
        intro a b h
        simpa [bumpRow_category] using h
      · rw [addToBreakdown_of_not_mem hmem, List.pairwise_append]
        refine ⟨hpair, List.pairwise_singleton _ _, ?_⟩
        intro a ha b hb
        simp only [List.mem_singleton] at hb
        subst hb
        show ps0.findIdx (fun x => x.category == a.category) <
          ps0.findIdx (fun x => x.category == p.category)
        have haPre : a.category ∈ pre.map (fun q => q.category) :=
          (hcats a.category).mp (List.mem_map.mpr ⟨a, ha, rfl⟩)
        obtain ⟨q, hq, hqa⟩ := List.mem_map.mp haPre
        have hlt1 : pre.findIdx (fun x => x.category == a.category) <
            pre.length :=
          List.findIdx_lt_length.mpr ⟨q, hq, by simp [hqa]⟩
        have hnotpre : p.category ∉ pre.map (fun q => q.category) :=
          fun hmm => hmem ((hcats p.category).mpr hmm)
        have hnp : ∀ x ∈ pre, (fun x => x.category == p.category) x = false := by
          intro x hx
          have hne : ¬ x.category = p.category :=
            fun he => hnotpre (List.mem_map.mpr ⟨x, hx, he⟩)
          simp [hne]
        have h2 : pre.findIdx (fun x => x.category == p.category) =
            pre.length := List.findIdx_eq_length.mpr hnp
        rw [hsplit, List.findIdx_append, List.findIdx_append, if_pos hlt1,
          if_neg (by omega)]
        omega

/-- The grouped rows stand in first-encounter order of their categories. -/
theorem groupByCategory_order (ps : List Product) :
    (groupByCategory ps).Pairwise (fun a b =>
      ps.findIdx (fun p => p.category == a.category) <
        ps.findIdx (fun p => p.category == b.category)) := by
  have h := groupFold_order ps ps [] [] rfl (by simp [catsOf])
    List.Pairwise.nil
  simpa [groupByCategory] using h

/-- C6. The category breakdown groups products by the raw case-sensitive
category string: each row carries the exact number and total line value of
the products with its category, the rows' categories are distinct and are
exactly the categories occurring in the catalog, the per-row counts sum to
`total_products`, and the rows are ordered by strictly descending count
with ties in first-encounter (catalog) order — the stable descending sort. -/
theorem categoryBreakdown_spec (ps : List Product) :
    (((categoryBreakdown ps).map (fun r => r.count)).sum = ps.length) ∧
    (∀ r ∈ categoryBreakdown ps,
      r.count = (ps.filter (fun q => q.category == r.category)).length ∧
      r.value =
        ((ps.filter (fun q => q.category == r.category)).map lineValue).sum) ∧
    (((categoryBreakdown ps).map (fun r => r.category)).Nodup) ∧
    (∀ c, c ∈ (categoryBreakdown ps).map (fun r => r.category) ↔
      c ∈ ps.map (fun p => p.category)) ∧
    (categoryBreakdown ps).Pairwise (fun a b =>
      b.count < a.count ∨ (a.count = b.count ∧
        ps.findIdx (fun p => p.category == a.category) <
          ps.findIdx (fun p => p.category == b.category))) := by
  have hperm : List.Perm (categoryBreakdown ps) (groupByCategory ps) :=
    sortRows_perm _
  have hnil : (catsOf ([] : List CategoryRow)).Nodup := by simp [catsOf]
  refine ⟨?_, ?_, ?_, ?_, ?_⟩
  · have h1 : ((categoryBreakdown ps).map (fun r => r.count)).sum =
        ((groupByCategory ps).map (fun r => r.count)).sum :=
      (hperm.map (fun r => r.count)).sum_eq
    rw [h1]
    have h2 := sumCounts_groupFold ps [] hnil
    simpa [groupByCategory] using h2
  · intro r hr
    have hr' : r ∈ groupByCategory ps := hperm.subset hr
    have h3 := rows_groupFold ps [] hnil r hr'
    simpa [baseCount_nil, baseValue_nil] using h3
  · have hnd : (catsOf (groupByCategory ps)).Nodup :=
      nodup_groupFold ps [] hnil
    have hnd2 : ((groupByCategory ps).map (fun r => r.category)).Nodup := by
      simpa [catsOf] using hnd
    exact ((hperm.map (fun r => r.category)).nodup_iff).mpr hnd2
  · intro c
    have hmm : c ∈ (categoryBreakdown ps).map (fun r => r.category) ↔
        c ∈ catsOf (groupByCategory ps) :=
      (hperm.map (fun r => r.category)).mem_iff
    rw [hmm]
    have h4 := mem_catsOf_groupFold ps [] c
    simpa [groupByCategory, catsOf] using h4
  · exact sortRows_pairwise (groupByCategory_order ps)

/-- Witness for C6 on the seeded catalog: the per-category counts sum to
the product count. -/
theorem categoryBreakdown_spec_witness :
    ((categoryBreakdown sampleProducts).map (fun r => r.count)).sum =
      sampleProducts.length :=
  (categoryBreakdown_spec sampleProducts).1

end Stockpile
